import Mathlib

/-!
# merkletree example: shallow embedding and verified properties

The development embeds `example/example.go` (the `TestContent` content kind, the
`hashSort` pair ordering and the three-leaf scenario of `main`) together with the
library functions it calls.  Go values are modelled as follows:

* `byte` is `Fin 256`, `[]byte` and `string` are `List Byte`;
* `int` index hints are `Int` (no arithmetic is performed on them);
* `*big.Int` is an optional heap address, the heap maps addresses to integers;
* a Go call either returns or panics (`GoResult`).
-/

namespace Merkle

/-- One Go `byte`. -/
abbrev Byte := Fin 256

/-- A Go byte slice `[]byte`, by value. -/
abbrev Bytes := List Byte

/-! ## `bytes.Compare` -/

namespace bytes

/-- Lexicographic comparison of two byte slices, as Go's `bytes.Compare`:
`-1` if `a < b`, `0` if `a == b`, `+1` if `a > b`; a proper prefix is smaller. -/
def Compare : Bytes → Bytes → Int
  | [], [] => 0
  | [], _ :: _ => -1
  | _ :: _, [] => 1
  | a :: as, b :: bs =>
    if a < b then -1
    else if b < a then 1
    else Compare as bs

end bytes

/-! ## `hashSort` (example.go, lines 33-38) -/

/-- Source `hashSort`: the two index hints come back swapped when the left digest
compares strictly greater than the right one, unchanged otherwise. -/
def hashSort (left : Int) (leftHash : Bytes) (right : Int) (rightHash : Bytes) : Int × Int :=
  if bytes.Compare leftHash rightHash > 0 then
    (right, left)
  else
    (left, right)

/-- Reading an index returned by the ordering function back as a digest, for the
pair `l -> A`, `r -> B`. -/
def readBack (l : Int) (A : Bytes) (r : Int) (B : Bytes) (k : Int) : Bytes :=
  if k = l then A else if k = r then B else []

/-- The ordered pair of digests selected by a pair of returned indices. -/
def selected (l : Int) (A : Bytes) (r : Int) (B : Bytes) (ij : Int × Int) : Bytes × Bytes :=
  (readBack l A r B ij.1, readBack l A r B ij.2)

/-! ## Go runtime values used by the example -/

/-- The error kinds named by the design; a Go `error` is `Option Error`, `none`
being `nil`. -/
inductive Error where
  | EmptyInput
  | HashError
  | NotFound
  | InvalidDigestLength
  | TypeMismatch
  deriving DecidableEq, Repr

/-- Why a Go call did not return. -/
inductive Panic where
  | nilDereference
  | typeAssertion
  | indexOutOfRange
  deriving DecidableEq, Repr

/-- Outcome of a Go call: it returns a value or it panics. -/
inductive GoResult (α : Type) where
  | ret (v : α)
  | panic (p : Panic)
  deriving DecidableEq, Repr

/-- The heap of `big.Int` objects: the integer stored at each address. -/
abbrev Heap := Nat → Int

/-- The bytes of a Go string literal (its UTF-8 encoding). -/
def str (s : String) : Bytes :=
  (s.toList.flatMap String.utf8EncodeChar).map (fun b => b.val)

/-- Big-endian value of a byte slice. -/
def beValue (b : Bytes) : Nat :=
  b.foldl (fun v d => v * 256 + d.val) 0

/-! ## `math/big`: `(*Int).Bytes` -/

namespace big

/-- Big-endian digits of `n` in base 256, most significant first, pushed in front
of `acc`; `fuel` bounds the number of digits. -/
def natBytes : Nat → Nat → Bytes → Bytes
  | 0, _, acc => acc
  | fuel + 1, n, acc =>
    if n = 0 then acc
    else natBytes fuel (n / 256) (⟨n % 256, Nat.mod_lt n (by decide)⟩ :: acc)

/-- Go `x.Bytes()`: the absolute value of `x` as a big-endian byte slice without
leading zeros (empty for zero). -/
def Int.Bytes (x : Int) : Merkle.Bytes :=
  natBytes x.natAbs x.natAbs []

end big

/-! ## `encoding/hex` and go-ethereum `common` -/

namespace hex

/-- The value of one hexadecimal character, `none` if it is not one. -/
def fromHexChar (c : Byte) : Option Nat :=
  if 48 ≤ c.val ∧ c.val ≤ 57 then some (c.val - 48)
  else if 97 ≤ c.val ∧ c.val ≤ 102 then some (c.val - 97 + 10)
  else if 65 ≤ c.val ∧ c.val ≤ 70 then some (c.val - 65 + 10)
  else none

/-- Go `hex.DecodeString`: the bytes decoded before the first error, and whether an
error (invalid character or odd length) was met. -/
def DecodeString : Bytes → Bytes × Bool
  | [] => ([], false)
  | [_] => ([], true)
  | p :: q :: rest =>
    match fromHexChar p, fromHexChar q with
    | some a, some b =>
      let r := DecodeString rest
      (⟨(a * 16 + b) % 256, Nat.mod_lt _ (by decide)⟩ :: r.1, r.2)
    | _, _ => ([], true)

end hex

namespace common

/-- Length of an Ethereum address in bytes. -/
def AddressLength : Nat := 20

/-- Whether the string begins with `0x` or `0X`. -/
def has0xPrefix (s : Bytes) : Bool :=
  match s with
  | a :: b :: _ => a.val == 48 && (b.val == 120 || b.val == 88)
  | _ => false

/-- Go `common.Hex2Bytes`: decode, dropping the error. -/
def Hex2Bytes (s : Bytes) : Bytes :=
  (hex.DecodeString s).1

/-- Go `common.FromHex`: strip an optional `0x`, left-pad odd input with `'0'`,
decode. -/
def FromHex (s : Bytes) : Bytes :=
  let s1 := if has0xPrefix s then s.drop 2 else s
  let s2 := if s1.length % 2 = 1 then (48 : Byte) :: s1 else s1
  Hex2Bytes s2

/-- Go `common.BytesToAddress`: keep the last 20 bytes, right-aligned in a zeroed
20-byte array. -/
def BytesToAddress (b : Bytes) : Bytes :=
  let b1 := if b.length > AddressLength then b.drop (b.length - AddressLength) else b
  List.replicate (AddressLength - b1.length) (0 : Byte) ++ b1

/-- Go `common.HexToAddress(s).Bytes()`. -/
def HexToAddress (s : Bytes) : Bytes :=
  BytesToAddress (FromHex s)

/-- Go `common.LeftPadBytes`: zero-pad `slice` on the left up to length `l`. -/
def LeftPadBytes (slice : Bytes) (l : Nat) : Bytes :=
  if l ≤ slice.length then slice
  else List.replicate (l - slice.length) (0 : Byte) ++ slice

end common

namespace crypto

/-- Go `crypto.Keccak256(data...)`: every argument is written to the hasher in
turn and the digest of what was written is returned; `keccak` is the Keccak-256
function on a message. -/
def Keccak256 (keccak : Bytes → Bytes) (data : List Bytes) : Bytes :=
  keccak (data.foldl (fun written b => written ++ b) [])

end crypto

/-! ## `TestContent` (example.go, lines 15-31) -/

/-- Source `TestContent`: `Address` is a Go string, `Amount` a `*big.Int`
(`none` is the nil pointer, `some p` the pointer to heap address `p`). -/
structure TestContent where
  Address : Bytes
  Amount : Option Nat
  deriving DecidableEq, Repr

/-- A value of the interface type `merkletree.Content`: its dynamic type is
`TestContent` or some other content kind (identified by a tag), or the interface
value is nil. -/
inductive Content where
  | nil
  | testContent (t : TestContent)
  | foreign (kind : Nat)
  deriving DecidableEq, Repr

/-- Source `TestContent.CalculateHash`: Keccak-256 of the 20 address bytes followed
by the amount left-padded to 32 bytes; the error is always nil.  Calling `Bytes` on
a nil `Amount` dereferences a nil pointer. -/
def TestContent.CalculateHash (keccak : Bytes → Bytes) (heap : Heap) (t : TestContent) :
    GoResult (Bytes × Option Error) :=
  match t.Amount with
  | none => .panic .nilDereference
  | some p =>
    let hash := crypto.Keccak256 keccak
      [common.HexToAddress t.Address, common.LeftPadBytes (big.Int.Bytes (heap p)) 32]
    .ret (hash, none)

/-- Source `TestContent.Equals`: the type assertion `other.(TestContent)` panics on
another dynamic type; otherwise the strings are compared by value and the `Amount`
pointers by identity; the error is always nil. -/
def TestContent.Equals (t : TestContent) (other : Content) : GoResult (Bool × Option Error) :=
  match other with
  | .testContent o => .ret (t.Address == o.Address && t.Amount == o.Amount, none)
  | .foreign _ => .panic .typeAssertion
  | .nil => .panic .typeAssertion

/-! ## The tree library called by `main` -/

/-- Modelled from the spec: `TreeConfig` of the missing library file, the pair
`{ hash: HashFunction, order: PairOrdering }`; the hash maps the concatenated
message to its digest, the ordering has the signature of `hashSort`. -/
structure TreeConfig where
  HashStrategy : Bytes → Bytes
  HashSortFunc : Int → Bytes → Int → Bytes → Int × Int

/-- Modelled from the spec: the missing pair combination, "every non-leaf digest =
config.hash(config.order(left.digest, right.digest))", the ordering function being
given both index hints and its returned indices read back as digests. -/
def combine (config : TreeConfig) (l : Int) (A : Bytes) (r : Int) (B : Bytes) : Bytes :=
  let p := selected l A r B (config.HashSortFunc l A r B)
  config.HashStrategy (p.1 ++ p.2)

/-- Modelled from the spec: the missing padding rule, "if the number of leaves is
odd at any level, duplicate the last node of that level". -/
def padLevel (level : List Bytes) : List Bytes :=
  if level.length % 2 = 1 then level ++ [level.getLastD []] else level

/-- Modelled from the spec: the missing pairwise combination of one level, node
`i` with node `i + 1`, the positions in the level being the index hints. -/
def combineLevel (config : TreeConfig) : Int → List Bytes → List Bytes
  | i, a :: b :: rest => combine config i a (i + 1) b :: combineLevel config (i + 2) rest
  | _, _ => []

/-- Modelled from the spec: the missing level-by-level construction: every level
before the root is padded to an even count and combined pairwise, "level by level
until exactly one node (the root) remains"; yields the padded levels below the
root, leaves first, and the root digest. -/
def buildLevels (config : TreeConfig) : Nat → List Bytes → List (List Bytes) × Bytes
  | 0, level => ([padLevel level], (combineLevel config 0 (padLevel level)).headD [])
  | fuel + 1, level =>
    let padded := padLevel level
    let next := combineLevel config 0 padded
    if next.length ≤ 1 then ([padded], next.headD [])
    else
      let up := buildLevels config fuel next
      (padded :: up.1, up.2)

/-- Modelled from the spec: `Tree` of the missing library file, stored as the
index-based arena of the design notes: the leaf digests in input order, the
padded levels below the root, the root digest and the configuration. -/
structure MerkleTree where
  Root : Bytes
  Leafs : List Bytes
  levels : List (List Bytes)
  config : TreeConfig

/-- Modelled from the spec: the leaf digests of the missing `build`, "leaf digest =
Content.digest() as-is"; a failing digest is reported as `HashError`, a panic of
the content propagates. -/
def leafDigests {C : Type} (digest : C → GoResult (Bytes × Option Error)) :
    List C → GoResult (Except Error (List Bytes))
  | [] => .ret (.ok [])
  | c :: cs =>
    match digest c with
    | .panic p => .panic p
    | .ret (_, some _) => .ret (.error .HashError)
    | .ret (h, none) =>
      match leafDigests digest cs with
      | .ret (.ok hs) => .ret (.ok (h :: hs))
      | other => other

/-- Modelled from the spec: `NewTreeWithConfig` (the design's `build`) of the
missing library file: `EmptyInput` on an empty list, `HashError` if a digest fails,
otherwise the tree built level by level from the leaf digests. -/
def NewTreeWithConfig {C : Type} (digest : C → GoResult (Bytes × Option Error))
    (cs : List C) (config : TreeConfig) : GoResult (Except Error MerkleTree) :=
  if cs.isEmpty then .ret (.error .EmptyInput)
  else
    match leafDigests digest cs with
    | .panic p => .panic p
    | .ret (.error e) => .ret (.error e)
    | .ret (.ok leafs) =>
      let built := buildLevels config leafs.length leafs
      .ret (.ok { Root := built.2, Leafs := leafs, levels := built.1, config := config })

/-- Modelled from the spec: `MerkleRoot` of the missing library file, "returns the
root node's digest; O(1), no recomputation". -/
def MerkleTree.MerkleRoot (t : MerkleTree) : Bytes :=
  t.Root

/-- Modelled from the spec: the leaf lookup of the missing proof generator, the
first index whose stored leaf digest equals the target's digest ("if duplicate
content appears in the input, the first matching index is used"). -/
def leafIndex (d : Bytes) : List Bytes → Option Nat
  | [] => none
  | x :: xs => if x = d then some 0 else (leafIndex d xs).map (fun i => i + 1)

/-- Modelled from the spec: the position of "the other child of the current node's
parent" for node `i` of a padded level of the missing tree. -/
def siblingIndex (i : Nat) : Nat :=
  if i % 2 = 0 then i + 1 else i - 1

/-- Modelled from the spec: the upward walk of the missing proof generator, "at
each level emit the sibling digest; advance current = parent; stop at root". -/
def pathFrom : List (List Bytes) → Nat → List Bytes
  | [], _ => []
  | level :: above, i => level.getD (siblingIndex i) [] :: pathFrom above (i / 2)

/-- Modelled from the spec: `GetMerklePath` (the design's `generatePath`) of the
missing library file: `NotFound` "if no leaf's digest equals target.digest()",
otherwise the sibling digests from the first matching leaf up to the root,
together with the leaf index. -/
def MerkleTree.GetMerklePath {C : Type} (digest : C → GoResult (Bytes × Option Error))
    (t : MerkleTree) (content : C) : GoResult (Except Error (List Bytes × Nat)) :=
  match digest content with
  | .panic p => .panic p
  | .ret (_, some _) => .ret (.error .HashError)
  | .ret (d, none) =>
    match leafIndex d t.Leafs with
    | some i => .ret (.ok (pathFrom t.levels i, i))
    | none => .ret (.error .NotFound)

/-- Modelled from the spec: the recomputation of the missing proof verifier,
"acc = leafDigest; for each siblingDigest in proof (leaf-to-root order):
acc = config.hash(config.order(acc, siblingDigest))". -/
def recomputeRoot (config : TreeConfig) (leafDigest : Bytes) (proof : List Bytes) : Bytes :=
  proof.foldl (fun acc siblingDigest => combine config 0 acc 1 siblingDigest) leafDigest

/-! ## `main` (example.go, lines 40-71) -/

/-- The heap after the three `big.NewInt(1000000000000000000)` calls of `main`
(addresses 0, 1 and 2). -/
def mainHeap : Heap :=
  fun _ => 1000000000000000000

/-- The list of contents built by `main`. -/
def mainList : List TestContent :=
  [ { Address := str "0x30afBFe6B5eBC2F5f008F819fc0Eb1E71ad5B265", Amount := some 0 },
    { Address := str "0x1b57b3A1d5b4aa8E218F54FafB00975699463e6e", Amount := some 1 },
    { Address := str "0xAA293A146aAf9E05BeDD1Ff29B0da5bD8BE70955", Amount := some 2 } ]

/-- The configuration built by `main`: legacy Keccak-256 and `hashSort`. -/
def mainConfig (keccak : Bytes → Bytes) : TreeConfig :=
  { HashStrategy := keccak, HashSortFunc := hashSort }

/-- What `main` logs: the root, the proof of `list[1]` and the leaf hashes. -/
structure MainLog where
  root : Bytes
  proofs : List Bytes
  leaves : List (GoResult (Bytes × Option Error))

/-- Source `main`: build the tree of the three contents, log the root, the Merkle
path of `list[1]` (errors ignored) and every leaf hash; `none` is `log.Fatal`. -/
def main (keccak : Bytes → Bytes) : GoResult (Option MainLog) :=
  let digest := TestContent.CalculateHash keccak mainHeap
  match NewTreeWithConfig digest mainList (mainConfig keccak) with
  | .panic p => .panic p
  | .ret (.error _) => .ret none
  | .ret (.ok t) =>
    let mr := t.MerkleRoot
    match mainList.get? 1 with
    | none => .panic .indexOutOfRange
    | some x =>
      match t.GetMerklePath digest x with
      | .panic p => .panic p
      | .ret r =>
        let proofs := match r with
          | .ok (path, _) => path
          | .error _ => []
        .ret (some { root := mr, proofs := proofs, leaves := mainList.map digest })

/-! ## Auxiliary definitions used in the proofs -/

/-- The concatenation that the sorted pair ordering feeds to the hash. -/
def sortedConcat (A B : Bytes) : Bytes :=
  if bytes.Compare A B > 0 then B ++ A else A ++ B

/-- One level combined with the sorted pair ordering, without index hints. -/
def pairHashes (H : Bytes → Bytes) : List Bytes → List Bytes
  | a :: b :: rest => H (sortedConcat a b) :: pairHashes H rest
  | _ => []

/-- The tree of three leaves with digests `lA`, `lB`, `lC` under the sorted pair
ordering, written out. -/
def threeLeafTree (H : Bytes → Bytes) (lA lB lC : Bytes) : MerkleTree :=
  { Root := H (sortedConcat (H (sortedConcat lA lB)) (H (sortedConcat lC lC))),
    Leafs := [lA, lB, lC],
    levels := [[lA, lB, lC, lC], [H (sortedConcat lA lB), H (sortedConcat lC lC)]],
    config := mainConfig H }

/-- A small stand-in hash (one checksum byte) for evaluating the definitions on
concrete inputs. -/
def toyHash (m : Bytes) : Bytes :=
  [⟨(m.foldl (fun a d => a * 31 + d.val) 7) % 256, Nat.mod_lt _ (by decide)⟩]

/-! ## Facts about `bytes.Compare` -/

theorem Compare_range (a b : Bytes) :
    bytes.Compare a b = -1 ∨ bytes.Compare a b = 0 ∨ bytes.Compare a b = 1 := by
  induction a generalizing b with
  | nil => cases b <;> simp [bytes.Compare]
  | cons x xs ih =>
    cases b with
    | nil => simp [bytes.Compare]
    | cons y ys =>
      simp only [bytes.Compare]
      split
      · simp
      · split
        · simp
        · exact ih ys

theorem Compare_self (a : Bytes) : bytes.Compare a a = 0 := by
  induction a with
  | nil => rfl
  | cons x xs ih => simp [bytes.Compare, ih]

theorem Compare_eq_zero (a b : Bytes) : bytes.Compare a b = 0 ↔ a = b := by
  constructor
  · induction a generalizing b with
    | nil => cases b <;> simp [bytes.Compare]
    | cons x xs ih =>
      cases b with
      | nil => simp [bytes.Compare]
      | cons y ys =>
        simp only [bytes.Compare]
        split
        · simp
        · split
          · simp
          · intro h
            have hxy : x = y := le_antisymm (not_lt.mp ‹¬ y < x›) (not_lt.mp ‹¬ x < y›)
            rw [hxy, ih ys h]
  · rintro rfl
    exact Compare_self a

theorem Compare_swap (a b : Bytes) : bytes.Compare b a = - bytes.Compare a b := by
  induction a generalizing b with
  | nil => cases b <;> simp [bytes.Compare]
  | cons x xs ih =>
    cases b with
    | nil => simp [bytes.Compare]
    | cons y ys =>
      simp only [bytes.Compare]
      by_cases h1 : x < y
      · have h2 : ¬ y < x := not_lt.mpr (le_of_lt h1)
        simp [h1, h2]
      · by_cases h2 : y < x
        · simp [h1, h2]
        · simp [h1, h2, ih ys]

theorem Compare_pos_swap {a b : Bytes} (h : bytes.Compare a b > 0) :
    ¬ bytes.Compare b a > 0 := by
  rw [Compare_swap a b]; omega

theorem Compare_not_pos_both {a b : Bytes} (h1 : ¬ bytes.Compare a b > 0)
    (h2 : ¬ bytes.Compare b a > 0) : a = b := by
  rw [Compare_swap a b] at h2
  exact (Compare_eq_zero a b).mp (by omega)

theorem sortedConcat_comm (A B : Bytes) : sortedConcat A B = sortedConcat B A := by
  unfold sortedConcat
  by_cases h1 : bytes.Compare A B > 0
  · simp [h1, Compare_pos_swap h1]
  · by_cases h2 : bytes.Compare B A > 0
    · simp [h1, h2]
    · have := Compare_not_pos_both h1 h2
      subst this
      simp

theorem selected_hashSort (l r : Int) (A B : Bytes) (hlr : l ≠ r) :
    selected l A r B (hashSort l A r B)
      = if bytes.Compare A B > 0 then (B, A) else (A, B) := by
  have hrl : r ≠ l := fun h => hlr h.symm
  unfold hashSort selected readBack
  by_cases h : bytes.Compare A B > 0 <;> simp [h, hrl]

theorem selected_hashSort_rev (l r : Int) (A B : Bytes) (hlr : l ≠ r) :
    selected l A r B (hashSort r B l A)
      = if bytes.Compare B A > 0 then (A, B) else (B, A) := by
  have hrl : r ≠ l := fun h => hlr h.symm
  unfold hashSort selected readBack
  by_cases h : bytes.Compare B A > 0 <;> simp [h, hrl]

theorem selected_hashSort_symm (l r : Int) (A B : Bytes) (hlr : l ≠ r) :
    selected l A r B (hashSort l A r B) = selected l A r B (hashSort r B l A) := by
  rw [selected_hashSort l r A B hlr, selected_hashSort_rev l r A B hlr]
  by_cases h1 : bytes.Compare A B > 0
  · simp [h1, Compare_pos_swap h1]
  · by_cases h2 : bytes.Compare B A > 0
    · simp [h1, h2]
    · have := Compare_not_pos_both h1 h2
      subst this
      simp

/-! ## Claims about `hashSort` -/

/-- C1: for all digests `A`, `B` and distinct hints `l`, `r`, the ordered pair of
digests selected by `hashSort(l, A, r, B)` (indices read back as `l -> A`, `r -> B`)
is the pair selected by `hashSort(r, B, l, A)`, and therefore every hash function
gives the same value on `first ++ second` for both argument orders. -/
theorem C1_hashSort_order_insensitive (A B : Bytes) (l r : Int) (hlr : l ≠ r) :
    selected l A r B (hashSort l A r B) = selected l A r B (hashSort r B l A) ∧
    ∀ hash : Bytes → Bytes,
      hash ((selected l A r B (hashSort l A r B)).1 ++ (selected l A r B (hashSort l A r B)).2)
        = hash ((selected l A r B (hashSort r B l A)).1
            ++ (selected l A r B (hashSort r B l A)).2) := by
  have h := selected_hashSort_symm l r A B hlr
  exact ⟨h, fun hash => by rw [h]⟩

/-- Witness of C1 at `A = [2]`, `B = [1, 255]`, hints `0` and `1`. -/
theorem C1_hashSort_order_insensitive_witness :
    (0 : Int) ≠ 1 ∧
    selected 0 [2] 1 [1, 255] (hashSort 0 [2] 1 [1, 255]) = ([1, 255], [2]) ∧
    selected 0 [2] 1 [1, 255] (hashSort 0 [2] 1 [1, 255])
      = selected 0 [2] 1 [1, 255] (hashSort 1 [1, 255] 0 [2]) :=
  ⟨by decide, by decide, (C1_hashSort_order_insensitive [2] [1, 255] 0 1 (by decide)).1⟩

/-- C4: for all digests `A`, `B` and distinct hints `l`, `r`, if `(i, j)` is the
result of `hashSort(l, A, r, B)` then the digest denoted by `i` is less than or
equal to the digest denoted by `j` in the order of `bytes.Compare`. -/
theorem C4_hashSort_greater_second (A B : Bytes) (l r : Int) (hlr : l ≠ r) :
    bytes.Compare (readBack l A r B (hashSort l A r B).1)
      (readBack l A r B (hashSort l A r B).2) ≤ 0 := by
  have h := selected_hashSort l r A B hlr
  unfold selected at h
  by_cases hc : bytes.Compare A B > 0
  · simp only [hc, if_true, Prod.mk.injEq] at h
    rw [h.1, h.2, Compare_swap A B]
    omega
  · simp only [hc, if_false, Prod.mk.injEq] at h
    rw [h.1, h.2]
    omega

/-- Witness of C4 at `A = [9, 0]`, `B = [9]`, hints `4` and `5`. -/
theorem C4_hashSort_greater_second_witness :
    (4 : Int) ≠ 5 ∧ hashSort 4 [9, 0] 5 [9] = (5, 4) ∧
    bytes.Compare (readBack 4 [9, 0] 5 [9] (hashSort 4 [9, 0] 5 [9]).1)
      (readBack 4 [9, 0] 5 [9] (hashSort 4 [9, 0] 5 [9]).2) ≤ 0 :=
  ⟨by decide, by decide, C4_hashSort_greater_second [9, 0] [9] 4 5 (by decide)⟩

/-- C8 as stated fails: with equal hints the result is `(r, l)` although `A` is not
strictly greater than `B`. -/
theorem C8_hashSort_iff_fails_equal_hints :
    hashSort 0 [1] 0 [1] = (0, 0) ∧ ¬ bytes.Compare [1] [1] > 0 ∧
    ¬ (∀ (A B : Bytes) (l r : Int),
        hashSort l A r B = (r, l) ↔ bytes.Compare A B > 0) := by
  refine ⟨by decide, by decide, ?_⟩
  intro h
  have h1 := (h [1] [1] 0 0).mp (by decide)
  exact absurd h1 (by decide)

/-- C8 (amended): `hashSort(l, A, r, B)` is `(r, l)` when `A` is strictly greater
than `B` and `(l, r)` otherwise; for distinct hints it is `(r, l)` if and only if
`A` is strictly greater than `B`; on identical digests it is `(l, r)`; the result
is always one of the two arrangements of the hints. -/
theorem C8_hashSort_swaps_when_greater (A B : Bytes) (l r : Int) :
    (bytes.Compare A B > 0 → hashSort l A r B = (r, l)) ∧
    (¬ bytes.Compare A B > 0 → hashSort l A r B = (l, r)) ∧
    (l ≠ r → (hashSort l A r B = (r, l) ↔ bytes.Compare A B > 0)) ∧
    hashSort l A r A = (l, r) ∧
    (hashSort l A r B = (l, r) ∨ hashSort l A r B = (r, l)) := by
  refine ⟨?_, ?_, ?_, ?_, ?_⟩
  · intro h; simp [hashSort, h]
  · intro h; simp [hashSort, h]
  · intro hlr
    by_cases h : bytes.Compare A B > 0
    · simp [hashSort, h]
    · simp only [hashSort, h, if_false, Prod.mk.injEq, iff_false]
      exact fun hh => hlr hh.1
  · simp [hashSort, Compare_self]
  · by_cases h : bytes.Compare A B > 0 <;> simp [hashSort, h]

/-- Witness of C8 (amended) at `A = [3]`, `B = [2, 7]`, hints `0` and `1`. -/
theorem C8_hashSort_swaps_when_greater_witness :
    bytes.Compare [3] [2, 7] > 0 ∧ hashSort 0 [3] 1 [2, 7] = (1, 0) :=
  ⟨by decide, (C8_hashSort_swaps_when_greater [3] [2, 7] 0 1).1 (by decide)⟩

/-! ## Facts about the amount encoding -/

theorem foldl_value (l : Bytes) (v : Nat) :
    l.foldl (fun v d => v * 256 + d.val) v
      = v * 256 ^ l.length + l.foldl (fun v d => v * 256 + d.val) 0 := by
  induction l generalizing v with
  | nil => simp
  | cons d ds ih =>
    simp only [List.foldl_cons, List.length_cons]
    rw [ih (v * 256 + d.val), ih (0 * 256 + d.val)]
    ring

theorem beValue_cons (d : Byte) (l : Bytes) :
    beValue (d :: l) = d.val * 256 ^ l.length + beValue l := by
  unfold beValue
  rw [List.foldl_cons, foldl_value]
  simp

theorem beValue_zeros_append (m : Nat) (l : Bytes) :
    beValue (List.replicate m (0 : Byte) ++ l) = beValue l := by
  induction m with
  | zero => simp
  | succ m ih =>
    rw [List.replicate_succ, List.cons_append, beValue_cons, ih]
    simp

theorem natBytes_value (fuel n : Nat) (acc : Bytes) (h : n ≤ fuel) :
    beValue (big.natBytes fuel n acc) = n * 256 ^ acc.length + beValue acc := by
  induction fuel generalizing n acc with
  | zero =>
    have : n = 0 := by omega
    subst this
    simp [big.natBytes]
  | succ fuel ih =>
    unfold big.natBytes
    by_cases hn : n = 0
    · subst hn; simp
    · simp only [hn, if_false]
      have hle : n / 256 ≤ fuel := by
        have : n / 256 < n := Nat.div_lt_self (Nat.pos_of_ne_zero hn) (by decide)
        omega
      rw [ih (n / 256) _ hle, beValue_cons]
      simp only [List.length_cons, pow_succ]
      have hdm := Nat.div_add_mod n 256
      calc n / 256 * (256 ^ acc.length * 256) + (n % 256 * 256 ^ acc.length + beValue acc)
          = (256 * (n / 256) + n % 256) * 256 ^ acc.length + beValue acc := by ring
        _ = n * 256 ^ acc.length + beValue acc := by rw [hdm]

theorem natBytes_length (fuel n k : Nat) (acc : Bytes) (h : n ≤ fuel) (hk : n < 256 ^ k) :
    (big.natBytes fuel n acc).length ≤ acc.length + k := by
  induction fuel generalizing n k acc with
  | zero => simp [big.natBytes]
  | succ fuel ih =>
    unfold big.natBytes
    by_cases hn : n = 0
    · subst hn; simp
    · simp only [hn, if_false]
      have hle : n / 256 ≤ fuel := by
        have : n / 256 < n := Nat.div_lt_self (Nat.pos_of_ne_zero hn) (by decide)
        omega
      cases k with
      | zero => simp at hk; omega
      | succ k =>
        have hk2 : n / 256 < 256 ^ k := by
          rw [Nat.div_lt_iff_lt_mul (by decide)]
          rw [pow_succ] at hk
          exact hk
        have := ih (n / 256) k (⟨n % 256, Nat.mod_lt n (by decide)⟩ :: acc) hle hk2
        simp only [List.length_cons] at this
        omega

theorem Int_Bytes_value (x : Int) : beValue (big.Int.Bytes x) = x.natAbs := by
  unfold big.Int.Bytes
  rw [natBytes_value _ _ _ (le_refl _)]
  simp [beValue]

theorem Int_Bytes_length (x : Int) (k : Nat) (h : x.natAbs < 256 ^ k) :
    (big.Int.Bytes x).length ≤ k := by
  unfold big.Int.Bytes
  have := natBytes_length x.natAbs x.natAbs k [] (le_refl _) h
  simpa using this

theorem LeftPadBytes_value (b : Bytes) (l : Nat) :
    beValue (common.LeftPadBytes b l) = beValue b := by
  unfold common.LeftPadBytes
  split
  · rfl
  · exact beValue_zeros_append _ _

theorem LeftPadBytes_length (b : Bytes) (l : Nat) (h : b.length ≤ l) :
    (common.LeftPadBytes b l).length = l := by
  unfold common.LeftPadBytes
  split
  · omega
  · simp; omega

theorem BytesToAddress_length (b : Bytes) : (common.BytesToAddress b).length = 20 := by
  unfold common.BytesToAddress common.AddressLength
  by_cases h : b.length > 20
  · simp [h]; omega
  · simp [h]; omega

theorem HexToAddress_length (s : Bytes) : (common.HexToAddress s).length = 20 :=
  BytesToAddress_length _

theorem CalculateHash_some (keccak : Bytes → Bytes) (heap : Heap) (t : TestContent) (p : Nat)
    (hp : t.Amount = some p) :
    t.CalculateHash keccak heap
      = .ret (keccak (common.HexToAddress t.Address
          ++ common.LeftPadBytes (big.Int.Bytes (heap p)) 32), none) := by
  unfold TestContent.CalculateHash crypto.Keccak256
  rw [hp]
  simp

/-! ## Claims about `TestContent` -/

/-- C5 (the code at the failing input): two contents with the same `Address` whose
`Amount`s are separately allocated big integers of equal value are reported as
different by `Equals`, which returns `(false, nil)`, although `CalculateHash`
gives both the same digest. -/
theorem C5_Equals_compares_amount_pointers :
    mainHeap 0 = mainHeap 1 ∧
    TestContent.Equals
        { Address := str "0x30afBFe6B5eBC2F5f008F819fc0Eb1E71ad5B265", Amount := some 0 }
        (.testContent
          { Address := str "0x30afBFe6B5eBC2F5f008F819fc0Eb1E71ad5B265", Amount := some 1 })
      = .ret (false, none) ∧
    ∀ keccak : Bytes → Bytes,
      TestContent.CalculateHash keccak mainHeap
          { Address := str "0x30afBFe6B5eBC2F5f008F819fc0Eb1E71ad5B265", Amount := some 0 }
        = TestContent.CalculateHash keccak mainHeap
          { Address := str "0x30afBFe6B5eBC2F5f008F819fc0Eb1E71ad5B265", Amount := some 1 } := by
  refine ⟨rfl, by decide, ?_⟩
  intro keccak
  rw [CalculateHash_some keccak mainHeap _ 0 rfl, CalculateHash_some keccak mainHeap _ 1 rfl]
  rfl

/-- C6 as stated fails: for a content of another dynamic type `Equals` does not
return a `TypeMismatch` error, it does not return at all. -/
theorem C6_Equals_returns_no_TypeMismatch :
    TestContent.Equals { Address := [], Amount := none } (.foreign 0)
      = .panic .typeAssertion ∧
    ¬ (∀ (t : TestContent) (other : Content), (∀ o, other ≠ .testContent o) →
        ∃ b, t.Equals other = .ret (b, some Error.TypeMismatch)) := by
  refine ⟨rfl, ?_⟩
  intro h
  obtain ⟨b, hb⟩ := h { Address := [], Amount := none } (.foreign 0) (by intro o; simp)
  simp [TestContent.Equals] at hb

/-- C6 (amended): for every content whose dynamic type is not `TestContent`,
`t.Equals(other)` panics at the type assertion and returns nothing; whenever
`Equals` returns, its error is nil. -/
theorem C6_Equals_panics_on_other_type (t : TestContent) (other : Content)
    (h : ∀ o, other ≠ .testContent o) :
    t.Equals other = .panic .typeAssertion ∧
    ∀ (u : TestContent) (c : Content) (r : Bool × Option Error),
      u.Equals c = .ret r → r.2 = none := by
  constructor
  · cases other with
    | nil => rfl
    | testContent o => exact absurd rfl (h o)
    | foreign k => rfl
  · intro u c r hr
    cases c with
    | nil => simp [TestContent.Equals] at hr
    | testContent o =>
      simp only [TestContent.Equals, GoResult.ret.injEq] at hr
      rw [← hr]
    | foreign k => simp [TestContent.Equals] at hr

/-- Witness of C6 (amended) at a content of foreign kind `7`. -/
theorem C6_Equals_panics_on_other_type_witness :
    (∀ o, Content.foreign 7 ≠ .testContent o) ∧
    TestContent.Equals { Address := str "0x01", Amount := some 0 } (.foreign 7)
      = .panic .typeAssertion :=
  ⟨by intro o; simp,
   (C6_Equals_panics_on_other_type { Address := str "0x01", Amount := some 0 } (.foreign 7)
      (by intro o; simp)).1⟩

/-- C7 as stated fails: no `TestContent`, malformed or not, makes `CalculateHash`
return a non-nil error. -/
theorem C7_CalculateHash_never_returns_error :
    ¬ (∃ (keccak : Bytes → Bytes) (heap : Heap) (t : TestContent) (d : Bytes) (e : Error),
        t.CalculateHash keccak heap = .ret (d, some e)) := by
  rintro ⟨keccak, heap, t, d, e, h⟩
  unfold TestContent.CalculateHash at h
  cases hA : t.Amount with
  | none => rw [hA] at h; simp at h
  | some p => rw [hA] at h; simp at h

/-- C7 (amended): for every `TestContent` with a non-nil `Amount`, whatever its
`Address` (well-formed or not), `CalculateHash` returns a digest and a nil error:
the Keccak-256 of the 20 bytes `HexToAddress` makes of the address followed by the
padded amount. -/
theorem C7_CalculateHash_returns_digest (keccak : Bytes → Bytes) (heap : Heap)
    (t : TestContent) (p : Nat) (hp : t.Amount = some p) :
    t.CalculateHash keccak heap
      = .ret (keccak (common.HexToAddress t.Address
          ++ common.LeftPadBytes (big.Int.Bytes (heap p)) 32), none) ∧
    (common.HexToAddress t.Address).length = 20 :=
  ⟨CalculateHash_some keccak heap t p hp, HexToAddress_length _⟩

/-- Witness of C7 (amended) at the malformed address `"not an address"`. -/
theorem C7_CalculateHash_returns_digest_witness :
    common.HexToAddress (str "not an address") = List.replicate 20 0 ∧
    TestContent.CalculateHash (fun m => m) mainHeap
        { Address := str "not an address", Amount := some 0 }
      = .ret ((fun m => m) (common.HexToAddress (str "not an address")
          ++ common.LeftPadBytes (big.Int.Bytes (mainHeap 0)) 32), none) :=
  ⟨by decide,
   (C7_CalculateHash_returns_digest (fun m => m) mainHeap
      { Address := str "not an address", Amount := some 0 } 0 rfl).1⟩

/-- C9: for every two `TestContent` values `a` and `b` with non-nil `Amount`, if
`a.Equals(b)` returns `(true, nil)` then `a.CalculateHash()` and
`b.CalculateHash()` return the same digest (with a nil error). -/
theorem C9_Equals_consistent_with_digest (keccak : Bytes → Bytes) (heap : Heap)
    (a b : TestContent) (ha : a.Amount ≠ none) (hb : b.Amount ≠ none)
    (h : a.Equals (.testContent b) = .ret (true, none)) :
    ∃ d, a.CalculateHash keccak heap = .ret (d, none) ∧
      b.CalculateHash keccak heap = .ret (d, none) := by
  simp only [TestContent.Equals, GoResult.ret.injEq, Prod.mk.injEq, Bool.and_eq_true,
    beq_iff_eq, and_true] at h
  have hab : a = b := by
    cases a; cases b
    simp only [TestContent.mk.injEq]
    exact h
  subst hab
  obtain ⟨p, hp⟩ := Option.ne_none_iff_exists'.mp ha
  exact ⟨_, CalculateHash_some keccak heap a p hp, CalculateHash_some keccak heap a p hp⟩

/-- Witness of C9 at two copies of the first content of `main` (same pointer). -/
theorem C9_Equals_consistent_with_digest_witness :
    TestContent.Equals { Address := str "0x30af", Amount := some 0 }
        (.testContent { Address := str "0x30af", Amount := some 0 }) = .ret (true, none) ∧
    ∃ d, TestContent.CalculateHash (fun m => m) mainHeap
          { Address := str "0x30af", Amount := some 0 } = .ret (d, none) ∧
      TestContent.CalculateHash (fun m => m) mainHeap
          { Address := str "0x30af", Amount := some 0 } = .ret (d, none) :=
  ⟨by decide,
   C9_Equals_consistent_with_digest (fun m => m) mainHeap
     { Address := str "0x30af", Amount := some 0 } { Address := str "0x30af", Amount := some 0 }
     (by simp) (by simp) (by decide)⟩

/-- C10: for every `TestContent` whose `Amount` `a` satisfies `0 <= a < 2^256`, the
amount part `LeftPadBytes(a.Bytes(), 32)` hashed by `CalculateHash` is exactly 32
bytes long with big-endian value `a`, the hashed preimage is the 20 address bytes
followed by these 32 bytes (52 bytes in all), and a content with the same address
bytes and a different amount in that range has a different preimage. -/
theorem C10_amount_fixed_width (keccak : Bytes → Bytes) (heap : Heap) (t : TestContent)
    (p : Nat) (hp : t.Amount = some p) (h0 : 0 ≤ heap p) (h1 : heap p < 2 ^ 256) :
    (common.LeftPadBytes (big.Int.Bytes (heap p)) 32).length = 32 ∧
    (beValue (common.LeftPadBytes (big.Int.Bytes (heap p)) 32) : Int) = heap p ∧
    (common.HexToAddress t.Address).length = 20 ∧
    t.CalculateHash keccak heap
      = .ret (keccak (common.HexToAddress t.Address
          ++ common.LeftPadBytes (big.Int.Bytes (heap p)) 32), none) ∧
    (common.HexToAddress t.Address
      ++ common.LeftPadBytes (big.Int.Bytes (heap p)) 32).length = 52 ∧
    ∀ (u : TestContent) (q : Nat), u.Amount = some q → 0 ≤ heap q → heap q < 2 ^ 256 →
      common.HexToAddress u.Address = common.HexToAddress t.Address → heap q ≠ heap p →
      common.HexToAddress u.Address ++ common.LeftPadBytes (big.Int.Bytes (heap q)) 32
        ≠ common.HexToAddress t.Address
            ++ common.LeftPadBytes (big.Int.Bytes (heap p)) 32 := by
  have hlen : ∀ x : Int, 0 ≤ x → x < 2 ^ 256 → (big.Int.Bytes x).length ≤ 32 := by
    intro x hx0 hx1
    apply Int_Bytes_length
    have : (x.natAbs : Int) < 2 ^ 256 := by rw [Int.natAbs_of_nonneg hx0]; exact hx1
    have h2 : x.natAbs < 2 ^ 256 := by exact_mod_cast this
    calc x.natAbs < 2 ^ 256 := h2
      _ = 256 ^ 32 := by norm_num
  have hval : ∀ x : Int, 0 ≤ x →
      (beValue (common.LeftPadBytes (big.Int.Bytes x) 32) : Int) = x := by
    intro x hx0
    rw [LeftPadBytes_value, Int_Bytes_value, Int.natAbs_of_nonneg hx0]
  have hpad := LeftPadBytes_length _ 32 (hlen (heap p) h0 h1)
  refine ⟨hpad, hval _ h0, HexToAddress_length _, CalculateHash_some keccak heap t p hp, ?_, ?_⟩
  · rw [List.length_append, hpad, HexToAddress_length]
  · intro u q _ hq0 _ haddr hne heq
    rw [haddr] at heq
    have hpads := List.append_cancel_left heq
    apply hne
    rw [← hval _ hq0, ← hval _ h0, hpads]

/-- Witness of C10 at the first content of `main` (amount `10^18`). -/
theorem C10_amount_fixed_width_witness :
    (0 : Int) ≤ mainHeap 0 ∧ mainHeap 0 < 2 ^ 256 ∧
    common.LeftPadBytes (big.Int.Bytes (mainHeap 0)) 32
      = List.replicate 24 0 ++ [13, 224, 182, 179, 167, 100, 0, 0] ∧
    (common.LeftPadBytes (big.Int.Bytes (mainHeap 0)) 32).length = 32 :=
  ⟨by decide, by norm_num [mainHeap], by decide,
   (C10_amount_fixed_width (fun m => m) mainHeap
      { Address := str "0x30afBFe6B5eBC2F5f008F819fc0Eb1E71ad5B265", Amount := some 0 } 0 rfl
      (by decide) (by norm_num [mainHeap])).1⟩

/-! ## Facts about the tree construction under `hashSort` -/

theorem combine_hashSort (H : Bytes → Bytes) (l r : Int) (A B : Bytes) (hlr : l ≠ r) :
    combine (mainConfig H) l A r B = H (sortedConcat A B) := by
  unfold combine sortedConcat mainConfig
  simp only [selected_hashSort l r A B hlr]
  by_cases h : bytes.Compare A B > 0 <;> simp [h]

theorem combineLevel_hashSort (H : Bytes → Bytes) :
    ∀ (level : List Bytes) (i : Int),
      combineLevel (mainConfig H) i level = pairHashes H level
  | [], _ => by simp [combineLevel, pairHashes]
  | [_], _ => by simp [combineLevel, pairHashes]
  | a :: b :: rest, i => by
    simp only [combineLevel, pairHashes]
    rw [combine_hashSort H i (i + 1) a b (by omega), combineLevel_hashSort H rest (i + 2)]

theorem pairHashes_length (H : Bytes → Bytes) :
    ∀ level : List Bytes, (pairHashes H level).length = level.length / 2
  | [] => by simp [pairHashes]
  | [_] => by simp [pairHashes]
  | a :: b :: rest => by
    simp only [pairHashes, List.length_cons, pairHashes_length H rest]
    omega

theorem siblingIndex_add_two (k : Nat) : siblingIndex (k + 2) = siblingIndex k + 2 := by
  unfold siblingIndex
  have : (k + 2) % 2 = k % 2 := by omega
  rw [this]
  split <;> omega

theorem pairHashes_getD (H : Bytes → Bytes) :
    ∀ (level : List Bytes) (k : Nat), level.length % 2 = 0 → k < level.length →
      H (sortedConcat (level.getD k []) (level.getD (siblingIndex k) []))
        = (pairHashes H level).getD (k / 2) []
  | [], _, _, hk => by simp at hk
  | [_], _, heven, _ => by simp at heven
  | a :: b :: rest, 0, _, _ => by simp [siblingIndex, pairHashes]
  | a :: b :: rest, 1, _, _ => by simp [siblingIndex, pairHashes, sortedConcat_comm b a]
  | a :: b :: rest, k + 2, heven, hk => by
    have hd : (k + 2) / 2 = k / 2 + 1 := by omega
    rw [siblingIndex_add_two, hd]
    simp only [List.getD_cons_succ, pairHashes]
    apply pairHashes_getD H rest k
    · simp only [List.length_cons] at heven; omega
    · simp only [List.length_cons] at hk; omega

theorem padLevel_length (level : List Bytes) :
    (padLevel level).length = level.length + level.length % 2 := by
  unfold padLevel
  split
  · rename_i h; simp [h]
  · rename_i h
    have : level.length % 2 = 0 := by omega
    simp [this]

theorem padLevel_getD (level : List Bytes) (k : Nat) (hk : k < level.length) :
    (padLevel level).getD k [] = level.getD k [] := by
  unfold padLevel
  split
  · exact List.getD_append _ _ _ _ hk
  · rfl

theorem recomputeRoot_cons (config : TreeConfig) (d s : Bytes) (rest : List Bytes) :
    recomputeRoot config d (s :: rest)
      = recomputeRoot config (combine config 0 d 1 s) rest := by
  simp [recomputeRoot]

theorem getD_zero_headD (l : List Bytes) : l.getD 0 [] = l.headD [] := by
  cases l <;> rfl

theorem combine_sibling (H : Bytes → Bytes) (level : List Bytes) (k : Nat)
    (hk : k < level.length) :
    combine (mainConfig H) 0 (level.getD k []) 1
        ((padLevel level).getD (siblingIndex k) [])
      = (combineLevel (mainConfig H) 0 (padLevel level)).getD (k / 2) [] := by
  have hlen := padLevel_length level
  have heven : (padLevel level).length % 2 = 0 := by omega
  have hkp : k < (padLevel level).length := by omega
  rw [combine_hashSort H 0 1 _ _ (by decide), combineLevel_hashSort,
    ← padLevel_getD level k hk, pairHashes_getD H (padLevel level) k heven hkp]

theorem combineLevel_padLevel_length (H : Bytes → Bytes) (level : List Bytes) :
    (combineLevel (mainConfig H) 0 (padLevel level)).length
      = (level.length + level.length % 2) / 2 := by
  rw [combineLevel_hashSort, pairHashes_length, padLevel_length]

theorem buildLevels_round_trip (H : Bytes → Bytes) (fuel : Nat) (level : List Bytes) (k : Nat)
    (hpos : 0 < level.length) (hfuel : level.length ≤ fuel + 2) (hk : k < level.length) :
    recomputeRoot (mainConfig H) (level.getD k [])
        (pathFrom (buildLevels (mainConfig H) fuel level).1 k)
      = (buildLevels (mainConfig H) fuel level).2 := by
  induction fuel generalizing level k with
  | zero =>
    have hk0 : k / 2 = 0 := by omega
    simp only [buildLevels, pathFrom, recomputeRoot_cons]
    rw [combine_sibling H level k hk, hk0, getD_zero_headD]
    rfl
  | succ fuel ih =>
    have hnext := combineLevel_padLevel_length H level
    unfold buildLevels
    by_cases h1 : (combineLevel (mainConfig H) 0 (padLevel level)).length ≤ 1
    · have hk0 : k / 2 = 0 := by omega
      simp only [h1, if_true, pathFrom, recomputeRoot_cons]
      rw [combine_sibling H level k hk, hk0, getD_zero_headD]
      rfl
    · simp only [h1, if_false, pathFrom, recomputeRoot_cons]
      rw [combine_sibling H level k hk]
      apply ih
      · omega
      · omega
      · omega

theorem leafDigests_ok {C : Type} (digest : C → GoResult (Bytes × Option Error)) (cs : List C)
    (hd : ∀ c ∈ cs, ∃ d, digest c = .ret (d, none)) :
    ∃ ds, leafDigests digest cs = .ret (.ok ds) ∧ ds.length = cs.length ∧
      ∀ c ∈ cs, ∀ d, digest c = .ret (d, none) → d ∈ ds := by
  induction cs with
  | nil => exact ⟨[], rfl, rfl, by simp⟩
  | cons c cs ih =>
    obtain ⟨d, hc⟩ := hd c (List.mem_cons_self _ _)
    obtain ⟨ds, hds, hlen, hmem⟩ := ih (fun c' hc' => hd c' (List.mem_cons_of_mem _ hc'))
    refine ⟨d :: ds, ?_, by simp [hlen], ?_⟩
    · simp [leafDigests, hc, hds]
    · intro c' hc' d' hd'
      rcases List.mem_cons.mp hc' with rfl | hin
      · rw [hc] at hd'
        simp only [GoResult.ret.injEq, Prod.mk.injEq, and_true] at hd'
        simp [hd']
      · exact List.mem_cons_of_mem _ (hmem c' hin d' hd')

theorem leafIndex_of_mem (d : Bytes) (ds : List Bytes) (h : d ∈ ds) :
    ∃ i, leafIndex d ds = some i ∧ i < ds.length ∧ ds.getD i [] = d := by
  induction ds with
  | nil => simp at h
  | cons x xs ih =>
    unfold leafIndex
    by_cases hx : x = d
    · exact ⟨0, by simp [hx], by simp, by simp [hx]⟩
    · have hin : d ∈ xs := by
        rcases List.mem_cons.mp h with rfl | hin
        · exact absurd rfl hx
        · exact hin
      obtain ⟨i, hi, hlt, hget⟩ := ih hin
      exact ⟨i + 1, by simp [hx, hi], by simp [hlt], by rw [List.getD_cons_succ]; exact hget⟩

theorem buildLevels_three (H : Bytes → Bytes) (lA lB lC : Bytes) :
    buildLevels (mainConfig H) 3 [lA, lB, lC]
      = ([[lA, lB, lC, lC], [H (sortedConcat lA lB), H (sortedConcat lC lC)]],
          H (sortedConcat (H (sortedConcat lA lB)) (H (sortedConcat lC lC)))) := by
  simp [buildLevels, padLevel, combineLevel_hashSort, pairHashes]

theorem NewTreeWithConfig_three {C : Type} (digest : C → GoResult (Bytes × Option Error))
    (H : Bytes → Bytes) (A B D : C) (lA lB lC : Bytes)
    (hA : digest A = .ret (lA, none)) (hB : digest B = .ret (lB, none))
    (hC : digest D = .ret (lC, none)) :
    NewTreeWithConfig digest [A, B, D] (mainConfig H)
      = .ret (.ok (threeLeafTree H lA lB lC)) := by
  have hleafs : leafDigests digest [A, B, D] = .ret (.ok [lA, lB, lC]) := by
    simp [leafDigests, hA, hB, hC]
  simp only [NewTreeWithConfig, List.isEmpty_cons, hleafs, threeLeafTree]
  simp [buildLevels_three]

theorem GetMerklePath_three {C : Type} (digest : C → GoResult (Bytes × Option Error))
    (H : Bytes → Bytes) (B : C) (lA lB lC : Bytes) (hB : digest B = .ret (lB, none)) :
    (threeLeafTree H lA lB lC).GetMerklePath digest B
      = .ret (.ok ([lA, H (sortedConcat lC lC)], if lA = lB then 0 else 1)) := by
  simp only [MerkleTree.GetMerklePath, hB, threeLeafTree]
  by_cases hab : lA = lB <;> simp [leafIndex, hab, pathFrom, siblingIndex]

theorem main_log (keccak : Bytes → Bytes) (lA lB lC : Bytes)
    (h : mainList.map (TestContent.CalculateHash keccak mainHeap)
      = [.ret (lA, none), .ret (lB, none), .ret (lC, none)]) :
    main keccak = .ret (some
      { root := keccak (sortedConcat (keccak (sortedConcat lA lB))
          (keccak (sortedConcat lC lC))),
        proofs := [lA, keccak (sortedConcat lC lC)],
        leaves := [.ret (lA, none), .ret (lB, none), .ret (lC, none)] }) := by
  have h3 := h
  simp only [mainList, List.map_cons, List.map_nil, List.cons.injEq, and_true] at h3
  obtain ⟨hA, hB, hC⟩ := h3
  have hbuild : NewTreeWithConfig (TestContent.CalculateHash keccak mainHeap) mainList
      (mainConfig keccak) = .ret (.ok (threeLeafTree keccak lA lB lC)) :=
    NewTreeWithConfig_three _ keccak _ _ _ lA lB lC hA hB hC
  simp only [main, hbuild, h]
  simp only [mainList, List.get?_cons_succ, List.get?_cons_zero]
  rw [GetMerklePath_three _ keccak _ lA lB lC hB]
  rfl

/-! ## Claims about the tree built by `main` -/

/-- C2: for every non-empty list of contents whose digests are computed, the tree
is built by `NewTreeWithConfig` under `hashSort` and a fixed hash `H`, and for
every item `x` of the list `GetMerklePath(x)` returns a path such that, starting
from `x.CalculateHash()` and combining with each path digest in leaf-to-root order,
the recomputation ends with `MerkleRoot()`. -/
theorem C2_round_trip {C : Type} (digest : C → GoResult (Bytes × Option Error))
    (H : Bytes → Bytes) (cs : List C) (x : C) (hne : cs ≠ []) (hx : x ∈ cs)
    (hd : ∀ c ∈ cs, ∃ d, digest c = .ret (d, none)) :
    ∃ t d path i,
      NewTreeWithConfig digest cs (mainConfig H)
        = .ret (.ok t) ∧
      digest x = .ret (d, none) ∧
      t.GetMerklePath digest x = .ret (.ok (path, i)) ∧
      recomputeRoot (mainConfig H) d path = t.MerkleRoot := by
  obtain ⟨ds, hds, hlen, hmem⟩ := leafDigests_ok digest cs hd
  obtain ⟨d, hdx⟩ := hd x hx
  obtain ⟨i, hi, hlt, hget⟩ := leafIndex_of_mem d ds (hmem x hx d hdx)
  have hempty : cs.isEmpty = false := by
    cases cs with
    | nil => exact absurd rfl hne
    | cons a as => rfl
  refine ⟨⟨(buildLevels (mainConfig H) ds.length ds).2, ds,
      (buildLevels (mainConfig H) ds.length ds).1, mainConfig H⟩, d,
    pathFrom (buildLevels (mainConfig H) ds.length ds).1 i, i, ?_, hdx, ?_, ?_⟩
  · simp only [NewTreeWithConfig, hempty, hds]
    rfl
  · simp [MerkleTree.GetMerklePath, hdx, hi]
  · have := buildLevels_round_trip H ds.length ds i (by omega) (by omega) hlt
    rw [hget] at this
    exact this

/-- Witness of C2 at the list of `main`, its second item and the stand-in hash. -/
theorem C2_round_trip_witness :
    ∃ t d path i,
      NewTreeWithConfig (TestContent.CalculateHash toyHash mainHeap) mainList
        (mainConfig toyHash) = .ret (.ok t) ∧
      TestContent.CalculateHash toyHash mainHeap
        { Address := str "0x1b57b3A1d5b4aa8E218F54FafB00975699463e6e", Amount := some 1 }
        = .ret (d, none) ∧
      t.GetMerklePath (TestContent.CalculateHash toyHash mainHeap)
        { Address := str "0x1b57b3A1d5b4aa8E218F54FafB00975699463e6e", Amount := some 1 }
        = .ret (.ok (path, i)) ∧
      recomputeRoot (mainConfig toyHash) d path
        = t.MerkleRoot :=
  C2_round_trip (TestContent.CalculateHash toyHash mainHeap) toyHash mainList
    { Address := str "0x1b57b3A1d5b4aa8E218F54FafB00975699463e6e", Amount := some 1 }
    (by simp [mainList]) (by simp [mainList])
    (by
      intro c hc
      simp only [mainList, List.mem_cons, List.mem_singleton, List.not_mem_nil, or_false] at hc
      rcases hc with rfl | rfl | rfl <;> exact ⟨_, CalculateHash_some _ _ _ _ rfl⟩)

/-- C3: for the list `[A, B, C]` with leaf digests `lA`, `lB`, `lC`, hash `H` and
order `hashSort`, the tree is built, its root is
`H(order(H(order(lA, lB)), H(order(lC, lC))))` and the Merkle path of `B` is
exactly `[lA, H(order(lC, lC))]`. -/
theorem C3_three_leaf_scenario {C : Type} (digest : C → GoResult (Bytes × Option Error))
    (H : Bytes → Bytes) (A B D : C) (lA lB lC : Bytes)
    (hA : digest A = .ret (lA, none)) (hB : digest B = .ret (lB, none))
    (hC : digest D = .ret (lC, none)) :
    ∃ t i,
      NewTreeWithConfig digest [A, B, D] (mainConfig H) = .ret (.ok t) ∧
      t.MerkleRoot
        = combine (mainConfig H) 0
            (combine (mainConfig H) 0 lA 1 lB) 1
            (combine (mainConfig H) 0 lC 1 lC) ∧
      t.GetMerklePath digest B
        = .ret (.ok ([lA, combine (mainConfig H) 0 lC 1 lC], i)) ∧
      combine (mainConfig H) 0 lC 1 lC = H (lC ++ lC) := by
  have hself : sortedConcat lC lC = lC ++ lC := by
    simp [sortedConcat, Compare_self]
  refine ⟨threeLeafTree H lA lB lC, if lA = lB then 0 else 1,
    NewTreeWithConfig_three digest H A B D lA lB lC hA hB hC, ?_, ?_, ?_⟩
  · simp [MerkleTree.MerkleRoot, threeLeafTree, combine_hashSort]
  · rw [GetMerklePath_three digest H B lA lB lC hB]
    simp [combine_hashSort]
  · rw [combine_hashSort H 0 1 _ _ (by decide), hself]

/-- Witness of C3 at the three contents of `main` and the stand-in hash. -/
theorem C3_three_leaf_scenario_witness :
    TestContent.CalculateHash toyHash mainHeap
        { Address := str "0x30afBFe6B5eBC2F5f008F819fc0Eb1E71ad5B265", Amount := some 0 }
      = .ret ([50], none) ∧
    TestContent.CalculateHash toyHash mainHeap
        { Address := str "0x1b57b3A1d5b4aa8E218F54FafB00975699463e6e", Amount := some 1 }
      = .ret ([22], none) ∧
    TestContent.CalculateHash toyHash mainHeap
        { Address := str "0xAA293A146aAf9E05BeDD1Ff29B0da5bD8BE70955", Amount := some 2 }
      = .ret ([221], none) ∧
    ∃ t i,
      NewTreeWithConfig (TestContent.CalculateHash toyHash mainHeap)
        [ { Address := str "0x30afBFe6B5eBC2F5f008F819fc0Eb1E71ad5B265", Amount := some 0 },
          { Address := str "0x1b57b3A1d5b4aa8E218F54FafB00975699463e6e", Amount := some 1 },
          { Address := str "0xAA293A146aAf9E05BeDD1Ff29B0da5bD8BE70955", Amount := some 2 } ]
        (mainConfig toyHash) = .ret (.ok t) ∧
      t.MerkleRoot
        = combine (mainConfig toyHash) 0
            (combine (mainConfig toyHash) 0 [50] 1 [22]) 1
            (combine (mainConfig toyHash) 0 [221] 1 [221]) ∧
      t.GetMerklePath (TestContent.CalculateHash toyHash mainHeap)
          { Address := str "0x1b57b3A1d5b4aa8E218F54FafB00975699463e6e", Amount := some 1 }
        = .ret (.ok ([[50],
            combine (mainConfig toyHash) 0 [221] 1 [221]],
            i)) ∧
      combine (mainConfig toyHash) 0 [221] 1 [221]
        = toyHash ([221] ++ [221]) :=
  ⟨by decide, by decide, by decide,
   C3_three_leaf_scenario (TestContent.CalculateHash toyHash mainHeap) toyHash _ _ _
     [50] [22] [221] (by decide) (by decide) (by decide)⟩

end Merkle
